import Mathlib

/-!
# Verification of the `cptemp` template-copying tool

A shallow embedding of `src/cptemp.py`: the template resolver
(`resolve_template`, `search_tempdir`), the template-file locator
(`find_tempfile`), the copy engine (`copy_rename`, `copy_norename`) and the
self-nesting safety guard from `main`.

Filesystem trees are modelled as finite labelled trees (`FSEntry`/`FSList`);
absolute paths are component lists (`FPath`).  The standard-library copy
primitives (`shutil.copy2`, `shutil.copytree(dirs_exist_ok=True)`) are external
collaborators of the program; they are modelled from the spec's contract:
copy-file overwrites the destination entry, copy-tree-merge recursively merges
source entries into the destination, overwriting on conflict and preserving
non-conflicting destination entries.
-/

set_option autoImplicit false

namespace Cptemp

/-- Absolute paths, as lists of name components (root is `[]`). -/
abbrev FPath := List String

/-! ## String helpers: `str.strip`, suffix/stem, `or`-chaining -/

/-- Whitespace test used by `str.strip()` (ASCII whitespace). -/
def isSpaceChar (c : Char) : Bool :=
  c = ' ' || c = '\t' || c = '\n' || c = '\r' || c = '\x0b' || c = '\x0c'

/-- Model of `str.strip()` on a character list: drop whitespace from both ends. -/
def stripChars (l : List Char) : List Char :=
  ((l.dropWhile isSpaceChar).reverse.dropWhile isSpaceChar).reverse

/-- Model of `tempstr.strip()` (line 96 of `cptemp.py`). -/
def pstrip (s : String) : String :=
  String.mk (stripChars s.data)

/-- Model of `looks_like_path` (lines 39-40): the query contains a path separator. -/
def looks_like_path (s : String) : Bool :=
  s.data.contains '/' || s.data.contains '\\'

/-- Whether `p` is a leading substring of `s` (structural version of
`String.isPrefixOf`, used so that terms reduce by `rfl`). -/
def strStartsWith (p s : String) : Bool :=
  p.data.isPrefixOf s.data

/-- Split a character list at `'/'` separators. -/
def splitSlashAux : List Char → List Char → List String
  | [], acc => [String.mk acc.reverse]
  | c :: rest, acc =>
    if c = '/' then String.mk acc.reverse :: splitSlashAux rest []
    else splitSlashAux rest (c :: acc)

/-- Model of `tempdir / tempstr` for a (separator-free or `/`-separated) literal query:
append the query's non-empty components to the directory path. -/
def pathAppend (d : FPath) (s : String) : FPath :=
  d ++ (splitSlashAux s.data []).filter (fun c => c != "")

/-- All suffixes of a character list, longest first. -/
def tailsOf : List Char → List (List Char)
  | [] => [[]]
  | c :: rest => (c :: rest) :: tailsOf rest

/-- Shell-style filename matching as used by `fnmatch`/`pathlib.glob` on one
name component: `*` matches any (possibly empty) character sequence, `?`
matches exactly one character, every other pattern character matches itself.
Character classes (`[...]`) are outside the model and are treated as literal
characters. -/
def globMatch : List Char → List Char → Bool
  | [], name => name.isEmpty
  | p :: ps, name =>
    if p = '*' then (tailsOf name).any (fun suf => globMatch ps suf)
    else
      match name with
      | [] => false
      | c :: ns => (p = c || p = '?') && globMatch ps ns

/-- Model of `path.name`: last component, `""` at the root. -/
def lastName (p : FPath) : String := p.getLastD ""

/-- Index of the last `'.'` in a name, if any. -/
def lastDotIdx (cs : List Char) : Option Nat :=
  (List.range cs.length).foldl
    (fun acc i => if cs.getD i ' ' = '.' then some i else acc) none

/-- Model of `PurePath.suffix`: the final extension including the dot; empty when the
name has no dot in an interior position (pathlib's `0 < i < len - 1` rule). -/
def path_suffix (name : String) : String :=
  match lastDotIdx name.data with
  | some i => if 0 < i ∧ i + 1 < name.data.length
              then String.mk (name.data.drop i) else ""
  | none => ""

/-- Model of `PurePath.stem`: the name with the final extension removed. -/
def path_stem (name : String) : String :=
  match lastDotIdx name.data with
  | some i => if 0 < i ∧ i + 1 < name.data.length
              then String.mk (name.data.take i) else name
  | none => name

/-- Python `a or b` on strings: `b` when `a` is empty. -/
def strOr (a b : String) : String := if a = "" then b else a

/-- Model of `path.parents` of an absolute component path: all proper ancestors
(the immediate parent, ..., the root). -/
def parentsOf (t : FPath) : List FPath :=
  (List.range t.length).map (fun k => t.take k)

/-! ## The filesystem model -/

mutual
/-- A filesystem entry: a regular file with contents, or a directory. -/
inductive FSEntry : Type where
  | file (content : String) : FSEntry
  | dir (children : FSList) : FSEntry

/-- Directory contents: a finite association list of named entries. -/
inductive FSList : Type where
  | nil : FSList
  | cons (name : String) (entry : FSEntry) (rest : FSList) : FSList
end

/-- Look up the entry with the given name (first occurrence). -/
def fsFind (n : String) : FSList → Option FSEntry
  | .nil => none
  | .cons m e rest => if m = n then some e else fsFind n rest

/-- Replace the entry named `n` (first occurrence), appending when absent. -/
def fsSet (n : String) (e : FSEntry) : FSList → FSList
  | .nil => .cons n e .nil
  | .cons m d rest => if m = n then .cons m e rest else .cons m d (fsSet n e rest)

/-- Resolve an absolute path in a tree rooted at the given directory listing. -/
def lookupPath : FSList → FPath → Option FSEntry
  | fs, [] => some (.dir fs)
  | fs, n :: rest =>
    match fsFind n fs with
    | some (.dir cs) => lookupPath cs rest
    | some (.file c) => if rest.isEmpty then some (.file c) else none
    | none => none

/-- Model of `path.exists()`. -/
def existsAt (fs : FSList) (p : FPath) : Bool := (lookupPath fs p).isSome

/-- Model of `path.is_file()`. -/
def isFileAt (fs : FSList) (p : FPath) : Bool :=
  match lookupPath fs p with
  | some (.file _) => true
  | _ => false

/-- Model of `path.is_dir()`. -/
def isDirAt (fs : FSList) (p : FPath) : Bool :=
  match lookupPath fs p with
  | some (.dir _) => true
  | _ => false

/-- Apply `f` to the children of the directory at `p` (no-op when a file is in
the way; creates missing directories along the path). -/
def updateDirAt : FSList → FPath → (FSList → FSList) → FSList
  | fs, [], f => f fs
  | fs, n :: rest, f =>
    match fsFind n fs with
    | some (.dir cs) => fsSet n (.dir (updateDirAt cs rest f)) fs
    | some (.file _) => fs
    | none => fsSet n (.dir (updateDirAt .nil rest f)) fs

/-- Model of `path.mkdir(parents=True, exist_ok=True)`: create the directories along
`p`; fails (`none`) when an existing regular file blocks the path. -/
def mkdirP : FSList → FPath → Option FSList
  | fs, [] => some fs
  | fs, n :: rest =>
    match fsFind n fs with
    | some (.dir cs) => (mkdirP cs rest).map (fun cs2 => fsSet n (.dir cs2) fs)
    | some (.file _) => none
    | none => (mkdirP .nil rest).map (fun cs2 => fsSet n (.dir cs2) fs)

mutual
/-- Well-formedness of an entry: directory listings have no duplicate names. -/
def wfEntry : FSEntry → Bool
  | .file _ => true
  | .dir cs => wfList cs

/-- Well-formedness of a directory listing: names are distinct, recursively. -/
def wfList : FSList → Bool
  | .nil => true
  | .cons n e rest => (fsFind n rest).isNone && wfEntry e && wfList rest
end

/-- Propositional membership of a named entry in a directory listing. -/
def entryMem (n : String) (e : FSEntry) : FSList → Prop
  | .nil => False
  | .cons m d rest => (m = n ∧ d = e) ∨ entryMem n e rest

/-! ## Copy-tree-merge

Modelled from the spec: `copyTreeMerge(srcDir, dstDir)` — the external
collaborator behind `shutil.copytree(..., dirs_exist_ok=True)` — is
"recursive, overwrite-on-conflict, preserve non-conflicting destination
entries".  It iterates the source entries, copying each one into the
destination: a source file overwrites the destination entry of the same name,
a source directory merges recursively into a destination directory of the
same name, and otherwise the source entry is copied as-is. -/

mutual
/-- Copy one source entry over a colliding destination entry. -/
def mergeEntry : FSEntry → FSEntry → FSEntry
  | .file c, _ => .file c
  | .dir cs, .dir ds => .dir (mergeChildren cs ds)
  | .dir cs, .file _ => .dir cs
termination_by s e => (sizeOf s, sizeOf e)

/-- Copy the named source entry into a destination listing: merge with the
first entry of the same name, appending when the name is absent. -/
def insertEntry (n : String) (e : FSEntry) : FSList → FSList
  | .nil => .cons n e .nil
  | .cons m d rest =>
    if m = n then .cons m (mergeEntry e d) rest
    else .cons m d (insertEntry n e rest)
termination_by l => (sizeOf e, sizeOf l)

/-- Merge every source entry into the destination listing, in source order. -/
def mergeChildren : FSList → FSList → FSList
  | .nil, dst => dst
  | .cons n e rest, dst => mergeChildren rest (insertEntry n e dst)
termination_by src dst => (sizeOf src, sizeOf dst)
end

/-! ## Template resolver (`resolve_template`, `search_tempdir`) -/

/-- Result of `resolve_template`: a resolved path, or one of the two fatal
resolution errors (`bottomtype` exits). -/
inductive ResolveResult : Type where
  | resolved (p : FPath) : ResolveResult
  | ambiguous (dirs files : List FPath) : ResolveResult
  | notFound : ResolveResult
deriving DecidableEq, Repr

/-- The direct children of a directory listing that are regular files and
whose name matches the glob pattern, as absolute paths in entry order (a
shallow `glob` filtered with `is_file`). -/
def globNamesFiles (pat : List Char) (base : FPath) : FSList → List FPath
  | .nil => []
  | .cons n e rest =>
    (match e with
     | .file _ => if globMatch pat n.data then [base ++ [n]] else []
     | .dir _ => []) ++ globNamesFiles pat base rest

/-- Model of `[p for p in tempdir.glob(tempstr) if p.is_file()]` (line 89).
For a separator-free pattern, `glob` yields the directory's direct entries
whose name matches the pattern (and nothing when `tempdir` is not a
directory); for a `/`-separated literal pattern it yields the named path when
it exists.  Wildcards inside multi-component patterns are outside the
model. -/
def globFiles (fs : FSList) (tempdir : FPath) (tempstr : String) : List FPath :=
  if tempstr.data.contains '/' then
    let p := pathAppend tempdir tempstr
    if isFileAt fs p then [p] else []
  else
    match lookupPath fs tempdir with
    | some (.dir cs) => globNamesFiles tempstr.data tempdir cs
    | _ => []

/-- Model of `search_tempdir` (lines 73-89): directory and file matches of a query in
one search root.  A missing root is skipped with a warning (empty matches). -/
def search_tempdir (fs : FSList) (tempstr : String) (tempdir : FPath) :
    List FPath × List FPath :=
  if !existsAt fs tempdir then ([], [])
  else
    let tpath := pathAppend tempdir tempstr
    if isDirAt fs tpath then ([tpath], [])
    else if looks_like_path tempstr && isFileAt fs tpath then ([], [tpath])
    else ([], globFiles fs tempdir tempstr)

/-- All directory matches collected across the search roots, in root order. -/
def dmatchesOf (fs : FSList) (tempdirs : List FPath) (tempstr : String) :
    List FPath :=
  (tempdirs.map (fun td => (search_tempdir fs tempstr td).1)).flatten

/-- All file matches collected across the search roots, in root order. -/
def fmatchesOf (fs : FSList) (tempdirs : List FPath) (tempstr : String) :
    List FPath :=
  (tempdirs.map (fun td => (search_tempdir fs tempstr td).2)).flatten

/-- The body of `resolve_template` after `tempstr = tempstr.strip()`:
absolute/relative path first (via the ambient `expand` =
`Path(...).expanduser().resolve()`), then the search roots, then the
disambiguation policy of lines 110-123. -/
def resolve_stripped (fs : FSList) (tempdirs : List FPath)
    (expand : String → FPath) (tempstr : String) : ResolveResult :=
  let temppath := expand tempstr
  if existsAt fs temppath then .resolved temppath
  else
    match dmatchesOf fs tempdirs tempstr with
    | [d] => .resolved d
    | dm =>
      let fm := fmatchesOf fs tempdirs tempstr
      if dm.length + fm.length > 1 then .ambiguous dm fm
      else
        match fm with
        | f :: _ => .resolved f
        | [] => .notFound

/-- Model of `resolve_template` (lines 92-123): strip the query, then resolve. -/
def resolve_template (fs : FSList) (tempdirs : List FPath)
    (expand : String → FPath) (tempstr : String) : ResolveResult :=
  resolve_stripped fs tempdirs expand (pstrip tempstr)

/-! ## Template-file locator (`find_tempfile`) -/

/-- Result of `find_tempfile`. -/
inductive LocateResult : Type where
  | noTemplateFile : LocateResult
  | multipleTemplateFiles (ms : List FPath) : LocateResult
  | found (p : FPath) : LocateResult
deriving DecidableEq, Repr

mutual
/-- Paths of the regular files in the subtree of the named entry whose
basename satisfies `pred` (the filtered `rglob`). -/
def rglobEntry (pred : String → Bool) (base : FPath) (n : String) :
    FSEntry → List FPath
  | .file _ => if pred n then [base ++ [n]] else []
  | .dir cs => rglobList pred (base ++ [n]) cs

/-- Paths of the regular files anywhere under a directory listing whose
basename satisfies `pred`, in tree order. -/
def rglobList (pred : String → Bool) (base : FPath) : FSList → List FPath
  | .nil => []
  | .cons n e rest => rglobEntry pred base n e ++ rglobList pred base rest
end

/-- The candidate template files of a directory:
`[p for p in searchdir.rglob("template*") if p.is_file()]` (line 62) —
recursively collected files whose basename starts with `"template"`. -/
def tempCandidates (fs : FSList) (searchdir : FPath) : List FPath :=
  match lookupPath fs searchdir with
  | some (.dir cs) => rglobList (fun n => strStartsWith "template" n) searchdir cs
  | _ => []

/-- Model of `find_tempfile` (lines 57-70): exactly one candidate is required. -/
def find_tempfile (fs : FSList) (searchdir : FPath) : LocateResult :=
  match tempCandidates fs searchdir with
  | [] => .noTemplateFile
  | [m] => .found m
  | ms => .multipleTemplateFiles ms

/-! ## Copy engine -/

/-- Per-target outcome reported by the copy engine. -/
inductive CopyOutcome : Type where
  | skippedFileTarget : CopyOutcome
  | copiedFile : CopyOutcome
  | copiedTree : CopyOutcome
deriving DecidableEq, Repr

/-- The test of line 134 classifying a target as a *file target*:
`(target.exists() and target.is_file()) or target.suffix`. -/
def fileTargetTest (fs : FSList) (target : FPath) : Bool :=
  (existsAt fs target && isFileAt fs target) || path_suffix (lastName target) != ""

/-- The new filename computed on lines 142-144 for a directory target:
`base_name = target.name or target.parent.name or temppath.stem` suffixed
with `ext = temppath.suffix`. -/
def renameDest (temppath target : FPath) : String :=
  strOr (lastName target)
    (strOr (lastName target.dropLast) (path_stem (lastName temppath)))
  ++ path_suffix (lastName temppath)

/-- One iteration of the `copy_rename` loop (lines 133-146) for a source
template file at `temppath`: returns the updated tree and the destination
path; `none` when the source is not a regular file or `mkdir` fails.
`shutil.copy2` is modelled as overwriting the destination entry. -/
def copy_rename_step (fs : FSList) (temppath : FPath) (target : FPath) :
    Option (FSList × FPath) :=
  match lookupPath fs temppath with
  | some (.file c) =>
    if fileTargetTest fs target then
      (mkdirP fs target.dropLast).map (fun fs1 =>
        (updateDirAt fs1 target.dropLast (fsSet (lastName target) (.file c)),
         target))
    else
      (mkdirP fs target).map (fun fs1 =>
        (updateDirAt fs1 target
           (fsSet (renameDest temppath target) (.file c)),
         target ++ [renameDest temppath target]))
  | _ => none

/-- One iteration of the `copy_norename` loop (lines 162-182): a target that
is an existing regular file is skipped with a warning; otherwise the target
directory is created and the template file (under its original name,
replacing any colliding entry — `rmtree` + `copy2`) or the template
directory's contents (`copytree(..., dirs_exist_ok=True)`) are copied in.
`none` models an uncaught `mkdir` error. -/
def copy_asis_step (tpl : FSEntry) (tplName : String) (fs : FSList)
    (target : FPath) : Option (FSList × CopyOutcome) :=
  if existsAt fs target && isFileAt fs target then
    some (fs, .skippedFileTarget)
  else
    match mkdirP fs target with
    | none => none
    | some fs1 =>
      match tpl with
      | .file c =>
        some (updateDirAt fs1 target (fsSet tplName (.file c)), .copiedFile)
      | .dir cs =>
        some (updateDirAt fs1 target (fun ds => mergeChildren cs ds),
              .copiedTree)

/-- Model of `copy_norename` (lines 149-182): process the targets in order, threading
the filesystem state; a skipped file target does not stop the loop. -/
def copy_norename (tpl : FSEntry) (tplName : String) :
    FSList → List FPath → Option (FSList × List CopyOutcome)
  | fs, [] => some (fs, [])
  | fs, t :: ts =>
    match copy_asis_step tpl tplName fs t with
    | none => none
    | some (fs1, o) =>
      match copy_norename tpl tplName fs1 ts with
      | none => none
      | some (fs2, os) => some (fs2, o :: os)

/-! ## Safety guard (`main`, lines 264-271) -/

/-- The guard condition of line 267 over all targets:
`temppath == target or temppath in target.parents`. -/
def guardTriggers (temppath : FPath) (targets : List FPath) : Bool :=
  targets.any (fun target =>
    temppath == target || (parentsOf target).contains temppath)

/-- Result of a guarded run. -/
inductive RunResult : Type where
  | destructiveNesting : RunResult
  | completed (fs : FSList) : RunResult

/-- Model of the copy phase of `main`: when the resolved template is a directory the guard
runs over every target first, and only if it does not trigger is the copy
performed (`doCopy` stands for the selected copy engine call). -/
def run_guarded (isdir : Bool) (temppath : FPath) (targets : List FPath)
    (fs : FSList) (doCopy : FSList → FSList) : RunResult :=
  if isdir && guardTriggers temppath targets then .destructiveNesting
  else .completed (doCopy fs)

/-! ## Concrete sample trees used by witnesses and counterexamples -/

/-- A root with a directory `X`, a nested file `X`, and a second root with a
file `X`. -/
def c1fs : FSList :=
  .cons "root"
    (.dir (.cons "X" (.dir .nil)
      (.cons "sub" (.dir (.cons "X" (.file "c") .nil)) .nil)))
    (.cons "root2" (.dir (.cons "X" (.file "c2") .nil)) .nil)

/-- An existing absolute path `abs` next to a root containing a colliding
directory `X`. -/
def c3fs : FSList :=
  .cons "abs" (.file "a")
    (.cons "root" (.dir (.cons "X" (.dir .nil) .nil)) .nil)

/-- Two roots each holding a file `report.txt`. -/
def c4fs : FSList :=
  .cons "r1" (.dir (.cons "report.txt" (.file "a") .nil))
    (.cons "r2" (.dir (.cons "report.txt" (.file "b") .nil)) .nil)

/-- A root whose only file named `q` sits in a nested subdirectory. -/
def c6fs : FSList :=
  .cons "root"
    (.dir (.cons "sub" (.dir (.cons "q" (.file "c") .nil)) .nil)) .nil

/-- A single root with one directory `X`. -/
def c10fs : FSList :=
  .cons "root" (.dir (.cons "X" (.dir .nil) .nil)) .nil

/-- A directory holding `template.typ` and `templatefoo`. -/
def c5fs : FSList :=
  .cons "d" (.dir (.cons "template.typ" (.file "t")
    (.cons "templatefoo" (.file "u") .nil))) .nil

/-- Children of a directory whose single template file sits in a nested
subdirectory. -/
def c5cs1 : FSList :=
  .cons "nested" (.dir (.cons "template.typ" (.file "t") .nil)) .nil

/-- A tree containing `c5cs1` at `d`. -/
def c5fs1 : FSList := .cons "d" (.dir c5cs1) .nil

/-- A template source file at `temps/template.typ`. -/
def c7fs : FSList :=
  .cons "temps" (.dir (.cons "template.typ" (.file "SRC") .nil)) .nil

/-- The tree `c7fs` after `mkdir -p hw/lab3`. -/
def c7fs1 : FSList :=
  .cons "temps" (.dir (.cons "template.typ" (.file "SRC") .nil))
    (.cons "hw" (.dir (.cons "lab3" (.dir .nil) .nil)) .nil)

/-- Template children for the merge-idempotence witness. -/
def c8cs : FSList := .cons "a" (.file "A") .nil

/-- Pre-existing target children for the merge-idempotence witness. -/
def c8ds : FSList := .cons "keep" (.file "K") .nil

/-- A tree with the target directory `t` holding `c8ds`. -/
def c8fs : FSList := .cons "t" (.dir c8ds) .nil

/-- Initial tree for the per-target-isolation witness: `blocked` is a file. -/
def c9fs0 : FSList := .cons "blocked" (.file "x") .nil

/-- The tree `c9fs0` after copying file template `f.txt` into target `a`. -/
def c9fs1 : FSList :=
  .cons "blocked" (.file "x")
    (.cons "a" (.dir (.cons "f.txt" (.file "T") .nil)) .nil)

/-- The tree `c9fs1` after copying file template `f.txt` into target `b`. -/
def c9fs2 : FSList :=
  .cons "blocked" (.file "x")
    (.cons "a" (.dir (.cons "f.txt" (.file "T") .nil))
      (.cons "b" (.dir (.cons "f.txt" (.file "T") .nil)) .nil))

/-! ## Resolver theorems -/

theorem dropWhile_all_append (p : Char → Bool) (a x : List Char)
    (ha : ∀ c ∈ a, p c = true) :
    List.dropWhile p (a ++ x) = List.dropWhile p x := by
  induction a with
  | nil => rfl
  | cons c t ih =>
    have hc : p c = true := ha c (List.mem_cons_self c t)
    simp only [List.cons_append, List.dropWhile_cons, hc, if_true]
    exact ih (fun d hd => ha d (List.mem_cons_of_mem c hd))

theorem dropWhile_append_of_ne (p : Char → Bool) (a x : List Char)
    (ha : List.dropWhile p a ≠ []) :
    List.dropWhile p (a ++ x) = List.dropWhile p a ++ x := by
  induction a with
  | nil => exact absurd rfl ha
  | cons c t ih =>
    by_cases hc : p c = true
    · simp only [List.dropWhile_cons, hc, if_true] at ha ⊢
      simp only [List.cons_append, List.dropWhile_cons, hc, if_true]
      exact ih ha
    · simp only [Bool.not_eq_true] at hc
      simp [List.dropWhile_cons, hc]

theorem stripChars_pad (pre post q : List Char)
    (hpre : ∀ c ∈ pre, isSpaceChar c = true)
    (hpost : ∀ c ∈ post, isSpaceChar c = true) :
    stripChars (pre ++ q ++ post) = stripChars q := by
  unfold stripChars
  rw [List.append_assoc, dropWhile_all_append _ _ _ hpre]
  by_cases hq : List.dropWhile isSpaceChar q = []
  · have hq' : ∀ c ∈ q, isSpaceChar c = true := by
      intro c hc
      exact List.dropWhile_eq_nil_iff.mp hq c hc
    have hpost' : List.dropWhile isSpaceChar post = [] :=
      List.dropWhile_eq_nil_iff.mpr (by intro c hc; exact hpost c hc)
    rw [dropWhile_all_append _ _ _ hq', hpost', hq]
  · rw [dropWhile_append_of_ne _ _ _ hq, List.reverse_append,
      dropWhile_all_append _ _ _ (by intro c hc; exact hpost c (List.mem_reverse.mp hc))]

theorem pstrip_pad (pre post : List Char) (q : String)
    (hpre : ∀ c ∈ pre, isSpaceChar c = true)
    (hpost : ∀ c ∈ post, isSpaceChar c = true) :
    pstrip (String.mk (pre ++ q.data ++ post)) = pstrip q := by
  unfold pstrip
  rw [show (String.mk (pre ++ q.data ++ post)).data = pre ++ q.data ++ post from rfl,
    stripChars_pad pre post q.data hpre hpost]

/-- C10.  The implicit whitespace normalization of `resolve_template`
(line 96): resolving a query and resolving the same query surrounded by extra
leading/trailing whitespace produce the same result. -/
theorem query_whitespace_normalization (fs : FSList) (tempdirs : List FPath)
    (expand : String → FPath) (q : String) (pre post : List Char)
    (hpre : ∀ c ∈ pre, isSpaceChar c = true)
    (hpost : ∀ c ∈ post, isSpaceChar c = true) :
    resolve_template fs tempdirs expand (String.mk (pre ++ q.data ++ post)) =
      resolve_template fs tempdirs expand q := by
  unfold resolve_template
  rw [pstrip_pad pre post q hpre hpost]

/-- Witness for C10 at a concrete input: padding the query `X` with
whitespace does not change the resolution result. -/
theorem query_whitespace_normalization_witness :
    resolve_template c10fs [["root"]] (fun _ => ["nope"])
        (String.mk ([' '] ++ "X".data ++ [' ', '\t'])) =
      resolve_template c10fs [["root"]] (fun _ => ["nope"]) "X" :=
  query_whitespace_normalization c10fs [["root"]] (fun _ => ["nope"]) "X"
    [' '] [' ', '\t'] (by decide) (by decide)

/-- C3.  Absolute-path precedence: when the expanded query denotes an existing
file or directory, `resolve_template` returns that path immediately, for any
search-root configuration. -/
theorem absolute_path_precedence (fs : FSList) (tempdirs : List FPath)
    (expand : String → FPath) (q : String)
    (h : existsAt fs (expand (pstrip q)) = true) :
    resolve_template fs tempdirs expand q = .resolved (expand (pstrip q)) := by
  unfold resolve_template resolve_stripped
  simp only [h, if_true]

/-- Witness for C3: the absolute path wins even though a colliding name `X`
exists in the search root. -/
theorem absolute_path_precedence_witness :
    existsAt c3fs ((fun (_ : String) => ["abs"]) (pstrip "X")) = true ∧
    resolve_template c3fs [["root"]] (fun _ => ["abs"]) "X" =
      .resolved ((fun (_ : String) => ["abs"]) (pstrip "X")) :=
  ⟨rfl, absolute_path_precedence c3fs [["root"]] (fun _ => ["abs"]) "X" rfl⟩

/-- C1.  Unique-directory-wins: when the expanded query does not exist and the
search over the roots yields exactly one directory match, `resolve_template`
returns that directory match regardless of the collected file matches, and in
particular never fails with `AmbiguousMatch`. -/
theorem unique_directory_wins (fs : FSList) (tempdirs : List FPath)
    (expand : String → FPath) (q : String) (d : FPath)
    (habs : existsAt fs (expand (pstrip q)) = false)
    (hd : dmatchesOf fs tempdirs (pstrip q) = [d]) :
    resolve_template fs tempdirs expand q = .resolved d := by
  unfold resolve_template resolve_stripped
  simp only [habs, Bool.false_eq_true, if_false, hd]

/-- Witness for C1: a directory `root/X` and a file `root2/X` both match; the
directory is returned. -/
theorem unique_directory_wins_witness :
    existsAt c1fs ((fun (_ : String) => ["nope"]) (pstrip "X")) = false ∧
    dmatchesOf c1fs [["root"], ["root2"]] (pstrip "X") = [["root", "X"]] ∧
    fmatchesOf c1fs [["root"], ["root2"]] (pstrip "X") = [["root2", "X"]] ∧
    resolve_template c1fs [["root"], ["root2"]] (fun _ => ["nope"]) "X" =
      .resolved ["root", "X"] :=
  ⟨rfl, rfl, rfl,
    unique_directory_wins c1fs [["root"], ["root2"]] (fun _ => ["nope"]) "X"
      ["root", "X"] rfl rfl⟩

/-- C4.  The resolver failure policy when there is no unique directory match:
more than one total match fails with `AmbiguousMatch` carrying both grouped
lists; a single file match is returned; zero matches fail with `NotFound`. -/
theorem resolver_failure_policy (fs : FSList) (tempdirs : List FPath)
    (expand : String → FPath) (q : String)
    (habs : existsAt fs (expand (pstrip q)) = false)
    (hd1 : (dmatchesOf fs tempdirs (pstrip q)).length ≠ 1) :
    ((dmatchesOf fs tempdirs (pstrip q)).length
        + (fmatchesOf fs tempdirs (pstrip q)).length > 1 →
      resolve_template fs tempdirs expand q =
        .ambiguous (dmatchesOf fs tempdirs (pstrip q))
          (fmatchesOf fs tempdirs (pstrip q))) ∧
    (∀ f, fmatchesOf fs tempdirs (pstrip q) = [f] →
      (dmatchesOf fs tempdirs (pstrip q)).length
        + (fmatchesOf fs tempdirs (pstrip q)).length ≤ 1 →
      resolve_template fs tempdirs expand q = .resolved f) ∧
    (dmatchesOf fs tempdirs (pstrip q) = [] →
      fmatchesOf fs tempdirs (pstrip q) = [] →
      resolve_template fs tempdirs expand q = .notFound) := by
  unfold resolve_template resolve_stripped
  simp only [habs, Bool.false_eq_true, if_false]
  refine ⟨?_, ?_, ?_⟩
  · intro htot
    rcases hdm : dmatchesOf fs tempdirs (pstrip q) with _ | ⟨a, _ | ⟨b, tl⟩⟩
    · rw [hdm] at htot
      simp only [hdm]
      rw [if_pos htot]
    · rw [hdm] at hd1; simp at hd1
    · rw [hdm] at htot
      simp only [hdm]
      rw [if_pos htot]
  · intro f hf htot
    rcases hdm : dmatchesOf fs tempdirs (pstrip q) with _ | ⟨a, _ | ⟨b, tl⟩⟩
    · rw [hdm, hf] at htot
      simp only [hdm, hf]
      rw [if_neg (by omega)]
    · rw [hdm] at hd1; simp at hd1
    · rw [hdm, hf] at htot
      simp at htot
  · intro hdm hf
    simp only [hdm, hf]
    rfl

/-- Witness for C4, exercised on the ambiguous branch: two file matches named
`report.txt` in two roots, no directory match. -/
theorem resolver_failure_policy_witness :
    existsAt c4fs ((fun (_ : String) => ["nope"]) (pstrip "report.txt")) = false ∧
    dmatchesOf c4fs [["r1"], ["r2"]] (pstrip "report.txt") = [] ∧
    fmatchesOf c4fs [["r1"], ["r2"]] (pstrip "report.txt") =
      [["r1", "report.txt"], ["r2", "report.txt"]] ∧
    resolve_template c4fs [["r1"], ["r2"]] (fun _ => ["nope"]) "report.txt" =
      .ambiguous [] [["r1", "report.txt"], ["r2", "report.txt"]] :=
  ⟨rfl, rfl, rfl,
    (resolver_failure_policy c4fs [["r1"], ["r2"]] (fun _ => ["nope"])
      "report.txt" rfl (by decide)).1 (by decide)⟩

/-- C6 counterexample.  The per-root search is *not* recursive: the file
`root/sub/q` has basename `q`, yet searching the root for the bare name `q`
records no file match at all (line 89 uses a shallow `glob`, not `rglob`). -/
theorem search_not_recursive :
    isFileAt c6fs ["root", "sub", "q"] = true ∧
    lastName ["root", "sub", "q"] = "q" ∧
    search_tempdir c6fs "q" ["root"] = ([], []) :=
  ⟨rfl, rfl, rfl⟩

theorem self_mem_tailsOf : ∀ l : List Char, l ∈ tailsOf l
  | [] => by simp [tailsOf]
  | c :: rest => by simp [tailsOf]

theorem globMatch_self : ∀ p : List Char, globMatch p p = true
  | [] => rfl
  | c :: ps => by
    by_cases hc : c = '*'
    · subst hc
      have hunf : globMatch ('*' :: ps) ('*' :: ps) =
          (tailsOf ('*' :: ps)).any (fun suf => globMatch ps suf) := by
        simp [globMatch]
      rw [hunf, List.any_eq_true]
      refine ⟨ps, ?_, globMatch_self ps⟩
      simp only [tailsOf]
      exact List.mem_cons_of_mem _ (self_mem_tailsOf ps)
    · simp only [globMatch, if_neg hc]
      rw [globMatch_self ps]
      simp

theorem globNamesFiles_mem (pat : List Char) (base : FPath) :
    ∀ (cs : FSList) (p : FPath),
    p ∈ globNamesFiles pat base cs ↔
      ∃ n c, entryMem n (.file c) cs ∧ globMatch pat n.data = true ∧
        p = base ++ [n]
  | .nil, p => by
    simp only [globNamesFiles, List.not_mem_nil, false_iff]
    rintro ⟨n, c, hmem, -, -⟩
    exact absurd hmem id
  | .cons m e rest, p => by
    have ih := globNamesFiles_mem pat base rest p
    simp only [globNamesFiles, List.mem_append]
    constructor
    · rintro (hleft | hright)
      · cases e with
        | file c0 =>
          by_cases hm : globMatch pat m.data = true
          · rw [if_pos hm] at hleft
            simp only [List.mem_singleton] at hleft
            exact ⟨m, c0, Or.inl ⟨rfl, rfl⟩, hm, hleft⟩
          · rw [if_neg hm] at hleft
            simp at hleft
        | dir cs0 => simp at hleft
      · obtain ⟨n, c, hmem, hm, hp⟩ := ih.mp hright
        exact ⟨n, c, Or.inr hmem, hm, hp⟩
    · rintro ⟨n, c, ⟨rfl, he⟩ | hmem, hm, hp⟩
      · left
        subst he
        simp [hm, hp]
      · right
        exact ih.mpr ⟨n, c, hmem, hm, hp⟩

/-- C6 amended.  For a separator-free, class-free query that reaches the
per-root search with `root/query` not a directory, the search performs a
*shallow* glob of the query in the root: it records as a file match exactly
the regular files directly in the root whose basename matches the query
pattern — in particular every direct-child file whose basename exactly
equals the query — and never searches nested subdirectories. -/
theorem shallow_basename_search (fs : FSList) (root : FPath) (q : String)
    (cs : FSList)
    (hroot : lookupPath fs root = some (.dir cs))
    (hnd : isDirAt fs (pathAppend root q) = false)
    (hnp : looks_like_path q = false)
    (hnb : q.data.contains '[' = false) :
    search_tempdir fs q root = ([], globNamesFiles q.data root cs) ∧
    (∀ p, p ∈ globNamesFiles q.data root cs ↔
      ∃ n c, entryMem n (.file c) cs ∧ globMatch q.data n.data = true ∧
        p = root ++ [n]) ∧
    (∀ n c, entryMem n (.file c) cs → n = q →
      root ++ [n] ∈ globNamesFiles q.data root cs) := by
  have hex : existsAt fs root = true := by
    unfold existsAt
    rw [hroot]
    rfl
  have hslash : q.data.contains '/' = false := by
    unfold looks_like_path at hnp
    exact (Bool.or_eq_false_iff.mp hnp).1
  have h1 : search_tempdir fs q root = ([], globNamesFiles q.data root cs) := by
    unfold search_tempdir globFiles
    simp only [hex, Bool.not_true, Bool.false_eq_true, if_false, hnd, hnp,
      Bool.false_and, hslash, hroot]
  refine ⟨h1, fun p => globNamesFiles_mem q.data root cs p, ?_⟩
  intro n c hmem hq
  subst hq
  exact (globNamesFiles_mem n.data root cs (root ++ [n])).mpr
    ⟨n, c, hmem, globMatch_self n.data, rfl⟩

/-- Witness for C6 amended: the wildcard query `report*` shallow-matches the
direct-child file `report.txt`. -/
theorem shallow_basename_search_witness :
    lookupPath c4fs ["r1"] =
      some (.dir (.cons "report.txt" (.file "a") .nil)) ∧
    isDirAt c4fs (pathAppend ["r1"] "report*") = false ∧
    looks_like_path "report*" = false ∧
    ("report*".data.contains '[') = false ∧
    search_tempdir c4fs "report*" ["r1"] =
      ([], globNamesFiles "report*".data ["r1"]
        (.cons "report.txt" (.file "a") .nil)) ∧
    globNamesFiles "report*".data ["r1"]
      (.cons "report.txt" (.file "a") .nil) = [["r1", "report.txt"]] :=
  ⟨rfl, rfl, rfl, rfl,
    (shallow_basename_search c4fs ["r1"] "report*"
      (.cons "report.txt" (.file "a") .nil) rfl rfl rfl rfl).1,
    rfl⟩

/-! ## Safety-guard theorems -/

theorem parentsOf_mem (t p : FPath) : p ∈ parentsOf t ↔ p <+: t ∧ p ≠ t := by
  unfold parentsOf
  simp only [List.mem_map, List.mem_range]
  constructor
  · rintro ⟨k, hk, rfl⟩
    refine ⟨⟨t.drop k, List.take_append_drop k t⟩, ?_⟩
    intro he
    have hlen := congrArg List.length he
    simp only [List.length_take] at hlen
    omega
  · rintro ⟨hpre, hne⟩
    refine ⟨p.length, ?_, (List.prefix_iff_eq_take.mp hpre).symm⟩
    have hle := hpre.length_le
    rcases Nat.lt_or_ge p.length t.length with h | h
    · exact h
    · exact absurd (hpre.eq_of_length (Nat.le_antisymm hle h)) hne

theorem parentsOf_contains (t p : FPath) :
    (parentsOf t).contains p = true ↔ p <+: t ∧ p ≠ t := by
  rw [← parentsOf_mem t p]
  constructor
  · exact fun h => List.mem_of_elem_eq_true h
  · exact fun h => List.elem_eq_true_of_mem h

/-- C2 counterexample.  The guard checks only one direction: here the target
`["h"]` is an ancestor of the directory template `["h","temps","X"]` (the
template is a descendant of the target), yet the guarded run completes
instead of failing with `DestructiveNesting`. -/
theorem nesting_guard_ancestor_unchecked :
    (["h"] : FPath) ∈ parentsOf ["h", "temps", "X"] ∧
    run_guarded true ["h", "temps", "X"] [["h"]] FSList.nil id =
      .completed FSList.nil :=
  ⟨by decide, rfl⟩

/-- C2 amended.  When the resolved template is a directory, the run fails
with `DestructiveNesting` — before any copy is performed — exactly when some
target equals the template directory or is a strict descendant of it; the
ancestor direction (a target strictly containing the template directory) is
not checked. -/
theorem nesting_guard_one_direction (temppath : FPath) (targets : List FPath)
    (fs : FSList) (doCopy : FSList → FSList) :
    run_guarded true temppath targets fs doCopy = .destructiveNesting ↔
      ∃ t, t ∈ targets ∧
        (temppath = t ∨ (temppath <+: t ∧ temppath ≠ t)) := by
  have h1 : run_guarded true temppath targets fs doCopy = .destructiveNesting
      ↔ guardTriggers temppath targets = true := by
    unfold run_guarded
    rw [Bool.true_and]
    by_cases hg : guardTriggers temppath targets = true
    · simp [hg]
    · simp [hg]
  rw [h1]
  unfold guardTriggers
  rw [List.any_eq_true]
  refine exists_congr fun t => and_congr_right fun _ => ?_
  rw [Bool.or_eq_true, beq_iff_eq, parentsOf_contains]

/-! ## Locator theorems -/

theorem lastName_concat (a : List String) (x : String) :
    lastName (a ++ [x]) = x := by
  unfold lastName
  induction a with
  | nil => rfl
  | cons c t ih =>
    rw [List.cons_append, List.getLastD_cons]
    cases t with
    | nil => rfl
    | cons d t2 => exact ih

/-- Characterization of the filtered recursive glob: under a well-formed
directory listing, the collected paths are exactly the strictly-below paths
of regular files whose basename satisfies the pattern. -/
theorem rglob_mem_aux : ∀ (k : Nat) (cs : FSList), sizeOf cs ≤ k →
    wfList cs = true → ∀ (pred : String → Bool) (base p : FPath),
    (p ∈ rglobList pred base cs ↔
      ∃ rest, rest ≠ [] ∧ p = base ++ rest ∧
        (∃ c, lookupPath cs rest = some (.file c)) ∧
        pred (lastName p) = true) := by
  intro k
  induction k with
  | zero =>
    intro cs hsize
    exfalso
    cases cs <;> simp_arith at hsize
  | succ k ih =>
    intro cs hsize hwf pred base p
    cases cs with
    | nil =>
      simp only [rglobList, List.not_mem_nil, false_iff]
      rintro ⟨rest, hne, -, ⟨c, hc⟩, -⟩
      cases rest with
      | nil => exact hne rfl
      | cons x xs => simp [lookupPath, fsFind] at hc
    | cons m e rest' =>
      have hspec : sizeOf (FSList.cons m e rest') =
          1 + sizeOf m + sizeOf e + sizeOf rest' := by simp_arith
      have hwf3 : (fsFind m rest').isNone = true ∧ wfEntry e = true ∧
          wfList rest' = true := by
        have h := hwf
        unfold wfList at h
        simpa [Bool.and_eq_true, and_assoc] using h
      obtain ⟨hwf1, hwfe, hwfr⟩ := hwf3
      have hrest' : sizeOf rest' ≤ k := by omega
      rw [show rglobList pred base (FSList.cons m e rest') =
        rglobEntry pred base m e ++ rglobList pred base rest' from rfl]
      rw [List.mem_append, ih rest' hrest' hwfr pred base p]
      constructor
      · rintro (hleft | ⟨rest1, hne1, hp1, ⟨c, hc1⟩, hpred1⟩)
        · cases e with
          | file c0 =>
            simp only [rglobEntry] at hleft
            by_cases hm : pred m = true
            · rw [if_pos hm] at hleft
              simp only [List.mem_singleton] at hleft
              subst hleft
              exact ⟨[m], by simp, rfl,
                ⟨c0, by simp [lookupPath, fsFind]⟩,
                by rw [lastName_concat]; exact hm⟩
            · rw [if_neg hm] at hleft
              simp at hleft
          | dir cs0 =>
            have hcs0 : sizeOf cs0 ≤ k := by
              have : sizeOf (FSEntry.dir cs0) = 1 + sizeOf cs0 := by simp_arith
              omega
            have hwfcs0 : wfList cs0 = true := hwfe
            rw [show rglobEntry pred base m (FSEntry.dir cs0) =
              rglobList pred (base ++ [m]) cs0 from rfl] at hleft
            rw [ih cs0 hcs0 hwfcs0 pred (base ++ [m]) p] at hleft
            obtain ⟨rest0, hne0, hp0, ⟨c, hc0⟩, hpred0⟩ := hleft
            refine ⟨m :: rest0, by simp, ?_, ⟨c, ?_⟩, hpred0⟩
            · rw [hp0, List.append_assoc]; rfl
            · simp only [lookupPath, fsFind, if_pos rfl]
              exact hc0
        · cases rest1 with
          | nil => exact absurd rfl hne1
          | cons x xs =>
            have hxm : ¬(m = x) := by
              intro hmx
              subst hmx
              simp only [lookupPath] at hc1
              rcases hfind : fsFind m rest' with _ | e2
              · rw [hfind] at hc1; exact Option.noConfusion hc1
              · rw [hfind] at hwf1; simp [Option.isNone] at hwf1
            refine ⟨x :: xs, by simp, hp1, ⟨c, ?_⟩, hpred1⟩
            simp only [lookupPath, fsFind, if_neg hxm]
            simpa [lookupPath] using hc1
      · rintro ⟨rest, hne, hp, ⟨c, hc⟩, hpred⟩
        cases rest with
        | nil => exact absurd rfl hne
        | cons x xs =>
          by_cases hmx : m = x
          · subst hmx
            simp only [lookupPath, fsFind, if_pos rfl] at hc
            cases e with
            | file c0 =>
              cases xs with
              | nil =>
                left
                simp only [rglobEntry]
                have hpm : pred m = true := by
                  rw [hp, lastName_concat] at hpred
                  exact hpred
                rw [if_pos hpm]
                simp [hp]
              | cons y ys => simp at hc
            | dir cs0 =>
              left
              have hcs0 : sizeOf cs0 ≤ k := by
                have : sizeOf (FSEntry.dir cs0) = 1 + sizeOf cs0 := by simp_arith
                omega
              rw [show rglobEntry pred base m (FSEntry.dir cs0) =
                rglobList pred (base ++ [m]) cs0 from rfl]
              rw [ih cs0 hcs0 hwfe pred (base ++ [m]) p]
              have hxs : xs ≠ [] := by
                intro hxs
                subst hxs
                simp [lookupPath] at hc
              refine ⟨xs, hxs, ?_, ⟨c, hc⟩, hpred⟩
              rw [hp, List.append_assoc]; rfl
          · right
            refine ⟨x :: xs, by simp, hp, ⟨c, ?_⟩, hpred⟩
            simp only [lookupPath, fsFind, if_neg hmx] at hc
            simpa [lookupPath] using hc

/-- C5 counterexample.  The locator's candidate set is *wider* than "basename
equals `template` or starts with `template.`": the file `templatefoo` matches
neither form of the claimed pattern, yet the locator counts it, so a
directory that should have exactly one candidate under the claim fails with
`MultipleTemplateFiles`. -/
theorem locator_pattern_counterexample :
    strStartsWith "template." "templatefoo" = false ∧
    (("templatefoo" : String) == "template") = false ∧
    find_tempfile c5fs ["d"] =
      .multipleTemplateFiles [["d", "template.typ"], ["d", "templatefoo"]] :=
  ⟨rfl, by decide, rfl⟩

/-- C5 amended.  Locator contract with the pattern the code (`rglob
"template*"`) actually uses: the candidates are exactly the recursively found
regular files whose basename *starts with* `template`; zero candidates fail
with `NoTemplateFile`, more than one fails with `MultipleTemplateFiles`
listing every candidate, and exactly one is returned. -/
theorem locator_contract_startswith (fs : FSList) (d : FPath) (cs : FSList)
    (hd : lookupPath fs d = some (.dir cs))
    (hwf : wfList cs = true) :
    (∀ p, p ∈ tempCandidates fs d ↔
      ∃ rest, rest ≠ [] ∧ p = d ++ rest ∧
        (∃ c, lookupPath cs rest = some (.file c)) ∧
        strStartsWith "template" (lastName p) = true) ∧
    (tempCandidates fs d = [] → find_tempfile fs d = .noTemplateFile) ∧
    (∀ m, tempCandidates fs d = [m] → find_tempfile fs d = .found m) ∧
    ((tempCandidates fs d).length > 1 →
      find_tempfile fs d = .multipleTemplateFiles (tempCandidates fs d)) := by
  have hcand : tempCandidates fs d =
      rglobList (fun n => strStartsWith "template" n) d cs := by
    unfold tempCandidates
    rw [hd]
  refine ⟨?_, ?_, ?_, ?_⟩
  · intro p
    rw [hcand]
    exact rglob_mem_aux (sizeOf cs) cs le_rfl hwf
      (fun n => strStartsWith "template" n) d p
  · intro h0
    unfold find_tempfile
    rw [h0]
  · intro m h1
    unfold find_tempfile
    rw [h1]
  · intro h2
    unfold find_tempfile
    rcases hc : tempCandidates fs d with _ | ⟨a, _ | ⟨b, tl⟩⟩
    · rw [hc] at h2; simp at h2
    · rw [hc] at h2; simp at h2
    · rfl

/-- Witness for C5 amended: a lone, nested `template.typ` is found. -/
theorem locator_contract_startswith_witness :
    lookupPath c5fs1 ["d"] = some (.dir c5cs1) ∧
    wfList c5cs1 = true ∧
    find_tempfile c5fs1 ["d"] = .found ["d", "nested", "template.typ"] :=
  ⟨rfl, rfl,
    (locator_contract_startswith c5fs1 ["d"] c5cs1 rfl rfl).2.2.1
      ["d", "nested", "template.typ"] rfl⟩

/-! ## Filesystem-operation lemmas -/

theorem fsFind_fsSet_self (n : String) (e : FSEntry) :
    ∀ l : FSList, fsFind n (fsSet n e l) = some e
  | .nil => by simp [fsSet, fsFind]
  | .cons m d rest => by
    by_cases hm : m = n
    · simp [fsSet, fsFind, hm]
    · simp only [fsSet, if_neg hm, fsFind]
      exact fsFind_fsSet_self n e rest

theorem updateDirAt_lookup : ∀ (t : FPath) (fs cs : FSList)
    (f : FSList → FSList), lookupPath fs t = some (.dir cs) →
    lookupPath (updateDirAt fs t f) t = some (.dir (f cs)) := by
  intro t
  induction t with
  | nil =>
    intro fs cs f h
    simp only [lookupPath, Option.some.injEq, FSEntry.dir.injEq] at h
    subst h
    rfl
  | cons n rest ih =>
    intro fs cs f h
    simp only [lookupPath] at h
    split at h
    next cs1 heq =>
      simp only [updateDirAt, heq, lookupPath, fsFind_fsSet_self]
      exact ih cs1 cs f h
    next c1 heq =>
      split at h <;> simp at h
    next heq => simp at h

theorem lookupPath_snoc : ∀ (t : FPath) (g ds : FSList) (x : String),
    lookupPath g t = some (.dir ds) →
    lookupPath g (t ++ [x]) = lookupPath ds [x] := by
  intro t
  induction t with
  | nil =>
    intro g ds x h
    simp only [lookupPath, Option.some.injEq, FSEntry.dir.injEq] at h
    subst h
    rfl
  | cons n rest ih =>
    intro g ds x h
    simp only [lookupPath] at h
    split at h
    next cs1 heq =>
      show lookupPath g (n :: (rest ++ [x])) = lookupPath ds [x]
      simp only [lookupPath, heq]
      exact ih cs1 ds x h
    next c1 heq =>
      split at h <;> simp at h
    next heq => simp at h

theorem mkdirP_isDir : ∀ (t : FPath) (fs fs1 : FSList),
    mkdirP fs t = some fs1 → ∃ ds, lookupPath fs1 t = some (.dir ds) := by
  intro t
  induction t with
  | nil =>
    intro fs fs1 h
    simp only [mkdirP, Option.some.injEq] at h
    subst h
    exact ⟨fs, rfl⟩
  | cons n rest ih =>
    intro fs fs1 h
    simp only [mkdirP] at h
    split at h
    next cs1 heq =>
      rcases hm : mkdirP cs1 rest with _ | cs2
      · rw [hm] at h; exact Option.noConfusion h
      · rw [hm] at h
        simp only [Option.map_some', Option.some.injEq] at h
        subst h
        obtain ⟨ds, hds⟩ := ih cs1 cs2 hm
        refine ⟨ds, ?_⟩
        simp only [lookupPath, fsFind_fsSet_self]
        exact hds
    next c1 heq => exact Option.noConfusion h
    next heq =>
      rcases hm : mkdirP FSList.nil rest with _ | cs2
      · rw [hm] at h; exact Option.noConfusion h
      · rw [hm] at h
        simp only [Option.map_some', Option.some.injEq] at h
        subst h
        obtain ⟨ds, hds⟩ := ih FSList.nil cs2 hm
        refine ⟨ds, ?_⟩
        simp only [lookupPath, fsFind_fsSet_self]
        exact hds

/-! ## Copy-engine theorems -/

/-- C7.  Rename-mode directory-target naming: for a target that is not
classified as a file target, `copy_rename` creates the target directory
(with parents), and writes the source file's bytes to
`target/(base_name ++ ext)` where `base_name` falls back from the target's
basename to the target's parent's basename to the source stem, and `ext` is
the source extension; the write overwrites whatever entry was at that
destination. -/
theorem rename_directory_target (fs : FSList) (temppath target : FPath)
    (c : String) (fs1 : FSList)
    (hsrc : lookupPath fs temppath = some (.file c))
    (hnotfile : fileTargetTest fs target = false)
    (hmk : mkdirP fs target = some fs1) :
    copy_rename_step fs temppath target =
      some (updateDirAt fs1 target
              (fsSet (renameDest temppath target) (.file c)),
            target ++ [renameDest temppath target]) ∧
    renameDest temppath target =
      strOr (lastName target)
        (strOr (lastName target.dropLast) (path_stem (lastName temppath)))
      ++ path_suffix (lastName temppath) ∧
    lookupPath
        (updateDirAt fs1 target
          (fsSet (renameDest temppath target) (.file c)))
        (target ++ [renameDest temppath target]) = some (.file c) := by
  obtain ⟨ds, hds⟩ := mkdirP_isDir target fs fs1 hmk
  refine ⟨?_, rfl, ?_⟩
  · unfold copy_rename_step
    rw [hsrc]
    simp only [hnotfile, Bool.false_eq_true, if_false, hmk]
    rfl
  · have h2 := updateDirAt_lookup target fs1 ds
      (fsSet (renameDest temppath target) (.file c)) hds
    rw [lookupPath_snoc target _ _ (renameDest temppath target) h2]
    simp only [lookupPath, fsFind_fsSet_self]
    rfl

/-- Witness for C7: copying `temps/template.typ` into directory target
`hw/lab3` lands at `hw/lab3/lab3.typ` with the source bytes. -/
theorem rename_directory_target_witness :
    lookupPath c7fs ["temps", "template.typ"] = some (.file "SRC") ∧
    fileTargetTest c7fs ["hw", "lab3"] = false ∧
    mkdirP c7fs ["hw", "lab3"] = some c7fs1 ∧
    renameDest ["temps", "template.typ"] ["hw", "lab3"] = "lab3.typ" ∧
    lookupPath
        (updateDirAt c7fs1 ["hw", "lab3"]
          (fsSet (renameDest ["temps", "template.typ"] ["hw", "lab3"])
            (.file "SRC")))
        (["hw", "lab3"] ++
          [renameDest ["temps", "template.typ"] ["hw", "lab3"]]) =
      some (.file "SRC") :=
  ⟨rfl, rfl, rfl, rfl,
    (rename_directory_target c7fs ["temps", "template.typ"] ["hw", "lab3"]
      "SRC" c7fs1 rfl rfl rfl).2.2⟩

theorem isFileAt_exists (fs : FSList) (t : FPath)
    (h : isFileAt fs t = true) : existsAt fs t = true := by
  unfold existsAt
  rcases hl : lookupPath fs t with _ | e
  · unfold isFileAt at h
    rw [hl] at h
    simp at h
  · rfl

theorem copy_asis_step_skip (tpl : FSEntry) (nm : String) (fs : FSList)
    (t : FPath) (hfile : isFileAt fs t = true) :
    copy_asis_step tpl nm fs t = some (fs, .skippedFileTarget) := by
  unfold copy_asis_step
  rw [isFileAt_exists fs t hfile, hfile]
  rfl

theorem copy_norename_append (tpl : FSEntry) (nm : String) :
    ∀ (l1 l2 : List FPath) (fs : FSList),
    copy_norename tpl nm fs (l1 ++ l2) =
      match copy_norename tpl nm fs l1 with
      | none => none
      | some (fs1, os1) =>
        match copy_norename tpl nm fs1 l2 with
        | none => none
        | some (fs2, os2) => some (fs2, os1 ++ os2) := by
  intro l1
  induction l1 with
  | nil =>
    intro l2 fs
    simp only [List.nil_append]
    rcases h : copy_norename tpl nm fs l2 with _ | ⟨fs2, os2⟩ <;>
      simp [copy_norename, h]
  | cons a l1' ih =>
    intro l2 fs
    rcases hs : copy_asis_step tpl nm fs a with _ | ⟨fsa, o⟩
    · simp [copy_norename, hs]
    · rcases h1 : copy_norename tpl nm fsa l1' with _ | ⟨fsb, os1⟩
      · simp [copy_norename, hs, ih, h1]
      · rcases h2 : copy_norename tpl nm fsb l2 with _ | ⟨fsc, os2⟩
        · simp [copy_norename, hs, ih, h1, h2]
        · simp [copy_norename, hs, ih, h1, h2]

/-- C9.  AsIs per-target isolation: a target that exists as a regular file
when the loop reaches it is skipped — the filesystem state is untouched by
that iteration and the outcome is `skippedFileTarget` — and every subsequent
target is still processed exactly as it would be from that state. -/
theorem asis_per_target_isolation (tpl : FSEntry) (nm : String)
    (fs fs1 fs2 : FSList) (pre post : List FPath) (t : FPath)
    (os1 os2 : List CopyOutcome)
    (h1 : copy_norename tpl nm fs pre = some (fs1, os1))
    (hfile : isFileAt fs1 t = true)
    (h2 : copy_norename tpl nm fs1 post = some (fs2, os2)) :
    copy_norename tpl nm fs (pre ++ t :: post) =
      some (fs2, os1 ++ CopyOutcome.skippedFileTarget :: os2) := by
  have hstep := copy_asis_step_skip tpl nm fs1 t hfile
  have hcons : copy_norename tpl nm fs1 (t :: post) =
      some (fs2, CopyOutcome.skippedFileTarget :: os2) := by
    simp only [copy_norename, hstep, h2]
  rw [copy_norename_append tpl nm pre (t :: post) fs, h1]
  show (match copy_norename tpl nm fs1 (t :: post) with
        | none => none
        | some (fs2, os2) => some (fs2, os1 ++ os2)) =
      some (fs2, os1 ++ CopyOutcome.skippedFileTarget :: os2)
  rw [hcons]

/-- Witness for C9: the file target `blocked` between two directory targets
is skipped; both directory targets receive the copy. -/
theorem asis_per_target_isolation_witness :
    copy_norename (.file "T") "f.txt" c9fs0 [["a"]] =
      some (c9fs1, [CopyOutcome.copiedFile]) ∧
    isFileAt c9fs1 ["blocked"] = true ∧
    copy_norename (.file "T") "f.txt" c9fs1 [["b"]] =
      some (c9fs2, [CopyOutcome.copiedFile]) ∧
    copy_norename (.file "T") "f.txt" c9fs0 [["a"], ["blocked"], ["b"]] =
      some (c9fs2, [CopyOutcome.copiedFile, CopyOutcome.skippedFileTarget,
        CopyOutcome.copiedFile]) :=
  ⟨rfl, rfl, rfl,
    asis_per_target_isolation (.file "T") "f.txt" c9fs0 c9fs1 c9fs2 [["a"]]
      [["b"]] ["blocked"] [CopyOutcome.copiedFile] [CopyOutcome.copiedFile]
      rfl rfl rfl⟩

/-! ## Merge lemmas (for AsIs idempotence) -/

theorem mergeChildren_nil (dst : FSList) : mergeChildren .nil dst = dst := by
  simp [mergeChildren]

theorem mergeChildren_cons (m : String) (e : FSEntry) (rest dst : FSList) :
    mergeChildren (.cons m e rest) dst =
      mergeChildren rest (insertEntry m e dst) := by
  simp [mergeChildren]

theorem fsFind_insertEntry (m n : String) (e : FSEntry) : ∀ X : FSList,
    fsFind m (insertEntry n e X) =
      if m = n then
        some (match fsFind n X with | some d => mergeEntry e d | none => e)
      else fsFind m X
  | .nil => by
    by_cases hmn : m = n
    · subst hmn
      simp [insertEntry, fsFind]
    · have hnm : ¬(n = m) := fun h => hmn h.symm
      simp [insertEntry, fsFind, hmn, hnm]
  | .cons k d rest => by
    by_cases hkn : k = n
    · subst hkn
      by_cases hkm : k = m
      · subst hkm
        simp [insertEntry, fsFind]
      · have hmk : ¬(m = k) := fun h => hkm h.symm
        simp [insertEntry, fsFind, hkm, hmk]
    · by_cases hkm : k = m
      · have hmn : ¬(m = n) := fun h => hkn (hkm.trans h)
        simp [insertEntry, fsFind, hkn, hkm, hmn]
      · simp only [insertEntry, if_neg hkn, fsFind, if_neg hkm]
        rw [fsFind_insertEntry m n e rest]

theorem fsFind_mergeChildren_notin (n : String) :
    ∀ (src dst : FSList), fsFind n src = none →
    fsFind n (mergeChildren src dst) = fsFind n dst
  | .nil, dst => by
    intro h
    rw [mergeChildren_nil]
  | .cons m e rest, dst => by
    intro h
    simp only [fsFind] at h
    by_cases hmn : m = n
    · rw [if_pos hmn] at h; exact Option.noConfusion h
    · rw [if_neg hmn] at h
      rw [mergeChildren_cons,
        fsFind_mergeChildren_notin n rest (insertEntry m e dst) h,
        fsFind_insertEntry n m e dst, if_neg (fun hx => hmn hx.symm)]

theorem fsFind_mergeChildren (n : String) :
    ∀ (src dst : FSList), wfList src = true →
    fsFind n (mergeChildren src dst) =
      match fsFind n src with
      | some s => some (match fsFind n dst with
                        | some d => mergeEntry s d
                        | none => s)
      | none => fsFind n dst
  | .nil, dst => by
    intro hwf
    rw [mergeChildren_nil]
    simp [fsFind]
  | .cons m e rest, dst => by
    intro hwf
    have hwf3 : (fsFind m rest).isNone = true ∧ wfEntry e = true ∧
        wfList rest = true := by
      have h := hwf
      unfold wfList at h
      simpa [Bool.and_eq_true, and_assoc] using h
    obtain ⟨hwf1, -, hwfr⟩ := hwf3
    rw [mergeChildren_cons]
    by_cases hmn : m = n
    · subst hmn
      have hrest : fsFind m rest = none := by
        rcases hx : fsFind m rest with _ | s
        · rfl
        · rw [hx] at hwf1; simp at hwf1
      rw [fsFind_mergeChildren_notin m rest (insertEntry m e dst) hrest,
        fsFind_insertEntry m m e dst, if_pos rfl]
      simp [fsFind]
    · rw [fsFind_mergeChildren n rest (insertEntry m e dst) hwfr,
        fsFind_insertEntry n m e dst, if_neg (fun hx => hmn hx.symm)]
      simp only [fsFind, if_neg hmn]

theorem insertEntry_id (n : String) (e d : FSEntry) : ∀ X : FSList,
    fsFind n X = some d → mergeEntry e d = d → insertEntry n e X = X
  | .nil => by intro h; exact Option.noConfusion h
  | .cons k x rest => by
    intro hf hm
    simp only [fsFind] at hf
    by_cases hkn : k = n
    · rw [if_pos hkn] at hf
      obtain rfl : x = d := Option.some.inj hf
      simp [insertEntry, hkn, hm]
    · rw [if_neg hkn] at hf
      simp only [insertEntry, if_neg hkn]
      rw [insertEntry_id n e d rest hf hm]

theorem mergeChildren_id : ∀ (src X : FSList),
    (∀ n e, entryMem n e src →
      ∃ d, fsFind n X = some d ∧ mergeEntry e d = d) →
    mergeChildren src X = X
  | .nil, X => by
    intro hp
    rw [mergeChildren_nil]
  | .cons m e rest, X => by
    intro hp
    obtain ⟨d, hf, hm⟩ := hp m e (Or.inl ⟨rfl, rfl⟩)
    rw [mergeChildren_cons, insertEntry_id m e d X hf hm]
    exact mergeChildren_id rest X (fun n e2 h2 => hp n e2 (Or.inr h2))

theorem entryMem_isSome (n : String) (e : FSEntry) : ∀ l : FSList,
    entryMem n e l → (fsFind n l).isSome = true
  | .nil => fun h => absurd h id
  | .cons m d rest => by
    rintro (⟨rfl, rfl⟩ | h)
    · simp [fsFind]
    · simp only [fsFind]
      by_cases hmn : m = n
      · simp [hmn]
      · rw [if_neg hmn]
        exact entryMem_isSome n e rest h

theorem wfList_find_mem (n : String) (e : FSEntry) : ∀ l : FSList,
    wfList l = true → entryMem n e l → fsFind n l = some e
  | .nil => fun _ h => absurd h id
  | .cons m d rest => by
    intro hwf hm
    have hwf3 : (fsFind m rest).isNone = true ∧ wfEntry d = true ∧
        wfList rest = true := by
      have h := hwf
      unfold wfList at h
      simpa [Bool.and_eq_true, and_assoc] using h
    obtain ⟨hwf1, -, hwfr⟩ := hwf3
    rcases hm with ⟨rfl, rfl⟩ | h
    · simp [fsFind]
    · by_cases hmn : m = n
      · subst hmn
        have := entryMem_isSome m e rest h
        rcases hx : fsFind m rest with _ | s
        · rw [hx] at this; simp at this
        · rw [hx] at hwf1; simp at hwf1
      · simp only [fsFind, if_neg hmn]
        exact wfList_find_mem n e rest hwfr h

theorem wfList_mem_wfEntry (n : String) (e : FSEntry) : ∀ l : FSList,
    wfList l = true → entryMem n e l → wfEntry e = true
  | .nil => fun _ h => absurd h id
  | .cons m d rest => by
    intro hwf hm
    have hwf3 : (fsFind m rest).isNone = true ∧ wfEntry d = true ∧
        wfList rest = true := by
      have h := hwf
      unfold wfList at h
      simpa [Bool.and_eq_true, and_assoc] using h
    obtain ⟨-, hwfd, hwfr⟩ := hwf3
    rcases hm with ⟨rfl, rfl⟩ | h
    · exact hwfd
    · exact wfList_mem_wfEntry n e rest hwfr h

theorem entryMem_sizeOf (n : String) (e : FSEntry) : ∀ l : FSList,
    entryMem n e l → sizeOf e < sizeOf l
  | .nil => fun h => absurd h id
  | .cons m d rest => by
    rintro (⟨rfl, rfl⟩ | h)
    · simp_arith
    · have := entryMem_sizeOf n e rest h
      have hs : sizeOf (FSList.cons m d rest) =
          1 + sizeOf m + sizeOf d + sizeOf rest := by simp_arith
      omega

/-- The combined self-merge and idempotence facts about the copy-tree-merge,
by strong induction on the size of the source side. -/
theorem merge_idem_pack : ∀ k : Nat,
    (∀ e, sizeOf e ≤ k → wfEntry e = true → mergeEntry e e = e) ∧
    (∀ cs, sizeOf cs ≤ k → wfList cs = true → mergeChildren cs cs = cs) ∧
    (∀ s, sizeOf s ≤ k → wfEntry s = true →
      ∀ e, mergeEntry s (mergeEntry s e) = mergeEntry s e) ∧
    (∀ src, sizeOf src ≤ k → wfList src = true →
      ∀ dst, mergeChildren src (mergeChildren src dst) =
        mergeChildren src dst) := by
  intro k
  induction k with
  | zero =>
    refine ⟨?_, ?_, ?_, ?_⟩
    · intro e hsize; exfalso; cases e <;> simp_arith at hsize
    · intro cs hsize; exfalso; cases cs <;> simp_arith at hsize
    · intro s hsize; exfalso; cases s <;> simp_arith at hsize
    · intro src hsize; exfalso; cases src <;> simp_arith at hsize
  | succ k ih =>
    obtain ⟨ihSelfE, ihSelfL, ihIdemE, ihIdemL⟩ := ih
    have mergeE_file : ∀ (c : String) (x : FSEntry),
        mergeEntry (.file c) x = .file c := by
      intro c x
      cases x <;> simp [mergeEntry]
    have mergeE_dir_dir : ∀ (cs ds : FSList),
        mergeEntry (.dir cs) (.dir ds) = .dir (mergeChildren cs ds) := by
      intro cs ds
      simp [mergeEntry]
    have mergeE_dir_file : ∀ (cs : FSList) (c : String),
        mergeEntry (.dir cs) (.file c) = .dir cs := by
      intro cs c
      simp [mergeEntry]
    have selfE : ∀ e, sizeOf e ≤ k + 1 → wfEntry e = true →
        mergeEntry e e = e := by
      intro e hsize hwf
      cases e with
      | file c => exact mergeE_file c _
      | dir cs =>
        have hcs : sizeOf cs ≤ k := by
          have : sizeOf (FSEntry.dir cs) = 1 + sizeOf cs := by simp_arith
          omega
        rw [mergeE_dir_dir, ihSelfL cs hcs hwf]
    have selfL : ∀ cs, sizeOf cs ≤ k + 1 → wfList cs = true →
        mergeChildren cs cs = cs := by
      intro cs hsize hwf
      refine mergeChildren_id cs cs (fun n e hmem => ?_)
      refine ⟨e, wfList_find_mem n e cs hwf hmem, ?_⟩
      have he : sizeOf e ≤ k := by
        have := entryMem_sizeOf n e cs hmem
        omega
      exact ihSelfE e he (wfList_mem_wfEntry n e cs hwf hmem)
    refine ⟨selfE, selfL, ?_, ?_⟩
    · intro s hsize hwf e
      cases s with
      | file c => rw [mergeE_file, mergeE_file]
      | dir cs =>
        have hcs : sizeOf cs ≤ k := by
          have : sizeOf (FSEntry.dir cs) = 1 + sizeOf cs := by simp_arith
          omega
        cases e with
        | file c0 =>
          rw [mergeE_dir_file, mergeE_dir_dir, ihSelfL cs hcs hwf]
        | dir ds =>
          rw [mergeE_dir_dir, mergeE_dir_dir, ihIdemL cs hcs hwf ds]
    · intro src hsize hwf dst
      refine mergeChildren_id src (mergeChildren src dst) (fun n e hmem => ?_)
      have hfind : fsFind n src = some e := wfList_find_mem n e src hwf hmem
      have he : sizeOf e ≤ k := by
        have := entryMem_sizeOf n e src hmem
        omega
      have hwfe : wfEntry e = true := wfList_mem_wfEntry n e src hwf hmem
      rw [fsFind_mergeChildren n src dst hwf, hfind]
      rcases hd : fsFind n dst with _ | d0
      · exact ⟨e, rfl, ihSelfE e he hwfe⟩
      · exact ⟨mergeEntry e d0, rfl, ihIdemE e he hwfe d0⟩

theorem fsSet_self (n : String) (e : FSEntry) : ∀ l : FSList,
    fsFind n l = some e → fsSet n e l = l
  | .nil => fun h => Option.noConfusion h
  | .cons m d rest => by
    intro h
    simp only [fsFind] at h
    by_cases hmn : m = n
    · rw [if_pos hmn] at h
      obtain rfl := Option.some.inj h
      simp [fsSet, hmn]
    · rw [if_neg hmn] at h
      simp only [fsSet, if_neg hmn]
      rw [fsSet_self n e rest h]

theorem mkdirP_exists : ∀ (t : FPath) (fs ds : FSList),
    lookupPath fs t = some (.dir ds) → mkdirP fs t = some fs := by
  intro t
  induction t with
  | nil => intro fs ds h; rfl
  | cons n rest ih =>
    intro fs ds h
    simp only [lookupPath] at h
    split at h
    next cs1 heq =>
      simp only [mkdirP, heq]
      rw [ih cs1 ds h]
      simp [fsSet_self n (FSEntry.dir cs1) fs heq]
    next c1 heq => split at h <;> simp at h
    next heq => simp at h

theorem updateDirAt_self : ∀ (t : FPath) (fs cs0 : FSList)
    (f : FSList → FSList), lookupPath fs t = some (.dir cs0) →
    f cs0 = cs0 → updateDirAt fs t f = fs := by
  intro t
  induction t with
  | nil =>
    intro fs cs0 f h hf
    simp only [lookupPath, Option.some.injEq, FSEntry.dir.injEq] at h
    subst h
    exact hf
  | cons n rest ih =>
    intro fs cs0 f h hf
    simp only [lookupPath] at h
    split at h
    next cs1 heq =>
      simp only [updateDirAt, heq]
      rw [ih cs1 cs0 f h hf]
      exact fsSet_self n (.dir cs1) fs heq
    next c1 heq => split at h <;> simp at h
    next heq => simp at h

theorem isFileAt_of_dir (fs : FSList) (t : FPath) (ds : FSList)
    (h : lookupPath fs t = some (.dir ds)) : isFileAt fs t = false := by
  unfold isFileAt
  rw [h]

/-- C8.  AsIs merge idempotence for a directory template over a directory
target: the first run merges the template children into the target's
children; a second run from the resulting state is a no-op (it produces the
same state and outcome), and target entries whose names do not collide with
template entries are preserved by the merge. -/
theorem asis_merge_idempotent (cs ds : FSList) (nm : String) (fs : FSList)
    (t : FPath)
    (hwf : wfList cs = true)
    (hds : lookupPath fs t = some (.dir ds)) :
    copy_asis_step (.dir cs) nm fs t =
      some (updateDirAt fs t (fun x => mergeChildren cs x), .copiedTree) ∧
    copy_asis_step (.dir cs) nm
        (updateDirAt fs t (fun x => mergeChildren cs x)) t =
      some (updateDirAt fs t (fun x => mergeChildren cs x), .copiedTree) ∧
    lookupPath (updateDirAt fs t (fun x => mergeChildren cs x)) t =
      some (.dir (mergeChildren cs ds)) ∧
    (∀ n, fsFind n cs = none →
      fsFind n (mergeChildren cs ds) = fsFind n ds) := by
  have hnf : isFileAt fs t = false := isFileAt_of_dir fs t ds hds
  have hmk : mkdirP fs t = some fs := mkdirP_exists t fs ds hds
  have hlook : lookupPath (updateDirAt fs t (fun x => mergeChildren cs x)) t =
      some (.dir (mergeChildren cs ds)) :=
    updateDirAt_lookup t fs ds (fun x => mergeChildren cs x) hds
  have hstep1 : copy_asis_step (.dir cs) nm fs t =
      some (updateDirAt fs t (fun x => mergeChildren cs x), .copiedTree) := by
    unfold copy_asis_step
    rw [hnf]
    simp only [Bool.and_false, Bool.false_eq_true, if_false, hmk]
  have hnf2 : isFileAt (updateDirAt fs t (fun x => mergeChildren cs x)) t =
      false := isFileAt_of_dir _ t _ hlook
  have hmk2 : mkdirP (updateDirAt fs t (fun x => mergeChildren cs x)) t =
      some (updateDirAt fs t (fun x => mergeChildren cs x)) :=
    mkdirP_exists t _ _ hlook
  have hidem : mergeChildren cs (mergeChildren cs ds) = mergeChildren cs ds :=
    (merge_idem_pack (sizeOf cs)).2.2.2 cs le_rfl hwf ds
  have hupd : updateDirAt (updateDirAt fs t (fun x => mergeChildren cs x)) t
      (fun x => mergeChildren cs x) =
      updateDirAt fs t (fun x => mergeChildren cs x) :=
    updateDirAt_self t _ (mergeChildren cs ds) _ hlook hidem
  refine ⟨hstep1, ?_, hlook, fun n hn => fsFind_mergeChildren_notin n cs ds hn⟩
  unfold copy_asis_step
  rw [hnf2]
  simp only [Bool.and_false, Bool.false_eq_true, if_false, hmk2, hupd]

/-- Witness for C8: merging template children `{a}` into a target holding
`{keep}` twice gives the state of one run, and `keep` is preserved. -/
theorem asis_merge_idempotent_witness :
    wfList c8cs = true ∧
    lookupPath c8fs ["t"] = some (.dir c8ds) ∧
    copy_asis_step (.dir c8cs) "tpl" c8fs ["t"] =
      some (updateDirAt c8fs ["t"] (fun x => mergeChildren c8cs x),
        .copiedTree) ∧
    copy_asis_step (.dir c8cs) "tpl"
        (updateDirAt c8fs ["t"] (fun x => mergeChildren c8cs x)) ["t"] =
      some (updateDirAt c8fs ["t"] (fun x => mergeChildren c8cs x),
        .copiedTree) ∧
    fsFind "keep" c8cs = none ∧
    fsFind "keep" (mergeChildren c8cs c8ds) = fsFind "keep" c8ds :=
  ⟨rfl, rfl,
    (asis_merge_idempotent c8cs c8ds "tpl" c8fs ["t"] rfl rfl).1,
    (asis_merge_idempotent c8cs c8ds "tpl" c8fs ["t"] rfl rfl).2.1,
    rfl,
    (asis_merge_idempotent c8cs c8ds "tpl" c8fs ["t"] rfl rfl).2.2.2
      "keep" rfl⟩

end Cptemp
